import Mathlib

/-!
Verification of the `type-set` crate: a heterogeneous collection storing at
most one value per Rust type, backed by a `BTreeMap<TypeId, Value>`.

The embedding follows `src/lib.rs` and `src/entry.rs`:

* a Rust type is modelled by its process-stable `TypeId` (a `Nat`) together
  with its `type_name` (`RustType`); two distinct Rust types never share a
  `TypeId`;
* a stored value of type `T` is modelled by a `Nat` payload; the erased
  `Box<dyn Any + Send + Sync>` is an `AnyBox` carrying the payload together
  with its true dynamic type, which is what `downcast_ref`/`downcast_mut`/
  `downcast` compare against the requested type's `TypeId`;
* the `Value` cell wraps the erased box with the `type_name` captured at
  construction time (`Value::new` in `src/lib.rs`); erasing a `value: T`
  with `Box::new(value)` produces a box whose dynamic type is `T`, so the
  cell built at the `entry.rs` insertion sites carries `T` and `T`'s name;
* the `BTreeMap<TypeId, Value>` is an association list strictly sorted by
  key (`WF`); `findKey`, `insertPair`, `removeKey` implement lookup,
  insert-or-replace and key removal;
* fallible downcasts return `Option`; the `unwrap!` macro of `src/lib.rs`
  panics (debug) or is UB (release) exactly when it receives `none`, so the
  safety claims are stated as the relevant results never being `none`;
* `&mut T` return values are modelled by the payload they point at, and
  closures (`FnOnce`) are modelled in state-passing style `σ → σ × _` so
  that invocation counts are observable.
-/

namespace TypeSetModel

/-- A Rust type as the store can observe it: its `TypeId` and its
`type_name`.  Distinct types have distinct ids. -/
structure RustType where
  id : Nat
  name : String
deriving DecidableEq, Repr

/-- The erased `Box<dyn Any + Send + Sync>`: a payload together with its true
dynamic type. -/
structure AnyBox where
  ty : RustType
  val : Nat
deriving DecidableEq, Repr

/-- The `Value` cell of `src/lib.rs`: the erased box plus the human-readable
type name captured when the cell was constructed. -/
structure Value where
  any : AnyBox
  name : String
deriving DecidableEq, Repr

/-- `Value::new` (src/lib.rs): box the value and record `type_name::<T>()`. -/
def Value.new (T : RustType) (v : Nat) : Value :=
  { any := { ty := T, val := v }, name := T.name }

/-- `Value::downcast_ref` (src/lib.rs): succeeds iff the requested type's
`TypeId` equals the boxed payload's dynamic `TypeId`. -/
def Value.downcast_ref (T : RustType) (v : Value) : Option Nat :=
  if v.any.ty.id = T.id then some v.any.val else none

/-- `Value::downcast_mut` (src/lib.rs): same success condition as
`downcast_ref`, yielding a mutable borrow of the payload. -/
def Value.downcast_mut (T : RustType) (v : Value) : Option Nat :=
  if v.any.ty.id = T.id then some v.any.val else none

/-- `Value::downcast` (src/lib.rs): consuming downcast, same condition. -/
def Value.downcast (T : RustType) (v : Value) : Option Nat :=
  if v.any.ty.id = T.id then some v.any.val else none

/-- Writing through a `&mut T` obtained by downcasting a cell: the payload
changes, the dynamic type and the recorded name cannot. -/
def Value.writeMut (v : Value) (p : Nat) : Value :=
  { any := { ty := v.any.ty, val := p }, name := v.name }

/-- `key::<T>()` (src/lib.rs): `TypeId::of::<T>()`. -/
def key (T : RustType) : Nat :=
  T.id

/-- The backing `BTreeMap<TypeId, Value>`, as an association list strictly
sorted by key. -/
abbrev TypeSet := List (Nat × Value)

/-- `BTreeMap::get`: the cell stored at a key, if any. -/
def findKey (k : Nat) : TypeSet → Option Value
  | [] => none
  | kv :: rest => if k = kv.1 then some kv.2 else findKey k rest

/-- `BTreeMap::insert`: insert or replace at a key, keeping keys sorted. -/
def insertPair (k : Nat) (v : Value) : TypeSet → TypeSet
  | [] => [(k, v)]
  | kv :: rest =>
    if k < kv.1 then (k, v) :: kv :: rest
    else if k = kv.1 then (k, v) :: rest
    else kv :: insertPair k v rest

/-- `BTreeMap::remove`: drop the key's pair entirely. -/
def removeKey (k : Nat) : TypeSet → TypeSet
  | [] => []
  | kv :: rest => if k = kv.1 then rest else kv :: removeKey k rest

/-- Structural invariant of a `BTreeMap`: keys strictly increase. -/
def WF (s : TypeSet) : Prop :=
  List.Pairwise (fun a b => a.1 < b.1) s

/-- Key–payload invariant: every cell's erased payload has exactly the
dynamic type whose `TypeId` it is stored under. -/
def Inv (s : TypeSet) : Prop :=
  ∀ kv ∈ s, kv.2.any.ty.id = kv.1

/-- `Entry` (src/entry.rs): a view into one type's slot, either vacant or
occupied; each variant holds its handle into the backing map. -/
inductive Entry where
  | vacant (s : TypeSet)
  | occupied (cell : Value) (s : TypeSet)
deriving Repr

/-- The backing map an entry borrows. -/
def entrySet : Entry → TypeSet
  | .vacant s => s
  | .occupied _ s => s

/-- `TypeSet::entry` (src/lib.rs): probe the map at `T`'s key and wrap the
result (`Entry::new` in src/entry.rs). -/
def TypeSet.entry (T : RustType) (s : TypeSet) : Entry :=
  match findKey (key T) s with
  | none => .vacant s
  | some cell => .occupied cell s

/-- `VacantEntry::insert` (src/entry.rs): store the erased value in the slot
and return the result of downcasting the freshly inserted cell. -/
def VacantEntry.insert (T : RustType) (v : Nat) (s : TypeSet) :
    Option Nat × TypeSet :=
  (Value.downcast_mut T (Value.new T v), insertPair (key T) (Value.new T v) s)

/-- `OccupiedEntry::get` (src/entry.rs). -/
def OccupiedEntry.get (T : RustType) (cell : Value) : Option Nat :=
  Value.downcast_ref T cell

/-- `OccupiedEntry::get_mut` (src/entry.rs). -/
def OccupiedEntry.get_mut (T : RustType) (cell : Value) : Option Nat :=
  Value.downcast_mut T cell

/-- `OccupiedEntry::into_mut` (src/entry.rs). -/
def OccupiedEntry.into_mut (T : RustType) (cell : Value) : Option Nat :=
  Value.downcast_mut T cell

/-- `OccupiedEntry::insert` (src/entry.rs): replace the slot's cell with the
erased new value and return the downcast of the previous cell. -/
def OccupiedEntry.insert (T : RustType) (v : Nat) (cell : Value)
    (s : TypeSet) : Option Nat × TypeSet :=
  (Value.downcast T cell, insertPair (key T) (Value.new T v) s)

/-- `OccupiedEntry::remove` (src/entry.rs): remove the slot's key from the
map and return the downcast of the removed cell. -/
def OccupiedEntry.remove (T : RustType) (cell : Value) (s : TypeSet) :
    Option Nat × TypeSet :=
  (Value.downcast T cell, removeKey (key T) s)

/-- `Entry::or_insert` (src/entry.rs): vacant inserts `default`, occupied
converts to `into_mut`. -/
def Entry.or_insert (T : RustType) (default : Nat) :
    Entry → Option Nat × TypeSet
  | .vacant s => VacantEntry.insert T default s
  | .occupied cell s => (OccupiedEntry.into_mut T cell, s)

/-- `Entry::or_insert_with` (src/entry.rs): the `FnOnce` closure is modelled
in state-passing style so invocations are observable; it is applied exactly
on the vacant branch, as in the source. -/
def Entry.or_insert_with {σ : Type} (T : RustType) (f : σ → σ × Nat) :
    Entry → σ → (Option Nat × TypeSet) × σ
  | .vacant s, c =>
    let p := f c
    (VacantEntry.insert T p.2 s, p.1)
  | .occupied cell s, c => ((OccupiedEntry.into_mut T cell, s), c)

/-- `Entry::and_modify` (src/entry.rs): occupied applies `f` to
`get_mut()`'s target in place (panicking — `none` — if the unchecked
downcast fails) and returns the still-occupied entry; vacant returns the
entry untouched without invoking `f`. -/
def Entry.and_modify {σ : Type} (T : RustType) (g : σ → Nat → σ × Nat) :
    Entry → σ → Option (Entry × σ)
  | .vacant s, c => some (.vacant s, c)
  | .occupied cell s, c =>
    match OccupiedEntry.get_mut T cell with
    | none => none
    | some p =>
      let q := g c p
      let cell' := Value.writeMut cell q.2
      some (.occupied cell' (insertPair (key T) cell' s), q.1)

/-- Modelled from the spec: `Entry::insert` is absent from src/entry.rs
(only its caller `TypeSet::insert` is in src/). §4.1: "obtain
`entry::<T>()`, then occupied → replace-and-return-previous, vacant →
insert-and-return-nothing", dispatching to the `VacantEntry::insert` and
`OccupiedEntry::insert` of src/entry.rs. -/
def Entry.insert (T : RustType) (v : Nat) : Entry → Option (Option Nat) × TypeSet
  | .vacant s => (none, (VacantEntry.insert T v s).2)
  | .occupied cell s =>
    let r := OccupiedEntry.insert T v cell s
    (some r.1, r.2)

/-- Modelled from the spec: `Entry::take` is absent from src/entry.rs (only
its caller `TypeSet::take` is in src/). §4.1: occupied → delete the slot's
key and return the value (the `OccupiedEntry::remove` of src/entry.rs);
vacant → return nothing. -/
def Entry.take (T : RustType) : Entry → Option (Option Nat) × TypeSet
  | .vacant s => (none, s)
  | .occupied cell s =>
    let r := OccupiedEntry.remove T cell s
    (some r.1, r.2)

/-- `TypeSet::new` (src/lib.rs). -/
def TypeSet.new : TypeSet :=
  []

/-- `TypeSet::len` (src/lib.rs). -/
def TypeSet.len (s : TypeSet) : Nat :=
  s.length

/-- `TypeSet::is_empty` (src/lib.rs). -/
def TypeSet.is_empty (s : TypeSet) : Bool :=
  s.isEmpty

/-- `TypeSet::contains` (src/lib.rs). -/
def TypeSet.contains (T : RustType) (s : TypeSet) : Bool :=
  (findKey (key T) s).isSome

/-- `TypeSet::get` (src/lib.rs): `self.0.get(&key).map(|v| unwrap!(v.downcast_ref()))`.
The outer `Option` is key presence, the inner one the downcast handed to
`unwrap!`. -/
def TypeSet.get (T : RustType) (s : TypeSet) : Option (Option Nat) :=
  (findKey (key T) s).map (fun v => Value.downcast_ref T v)

/-- `TypeSet::get_mut` (src/lib.rs). -/
def TypeSet.get_mut (T : RustType) (s : TypeSet) : Option (Option Nat) :=
  (findKey (key T) s).map (fun v => Value.downcast_mut T v)

/-- `TypeSet::insert` (src/lib.rs): `self.entry().insert(value)`. -/
def TypeSet.insert (T : RustType) (v : Nat) (s : TypeSet) :
    Option (Option Nat) × TypeSet :=
  Entry.insert T v (TypeSet.entry T s)

/-- `TypeSet::with` (src/lib.rs): insert, discarding the previous value. -/
def TypeSet.with (T : RustType) (v : Nat) (s : TypeSet) : TypeSet :=
  (TypeSet.insert T v s).2

/-- `TypeSet::take` (src/lib.rs): `self.entry().take()`. -/
def TypeSet.take (T : RustType) (s : TypeSet) :
    Option (Option Nat) × TypeSet :=
  Entry.take T (TypeSet.entry T s)

/-- `TypeSet::get_or_insert` (src/lib.rs): `self.entry().or_insert(default)`. -/
def TypeSet.get_or_insert (T : RustType) (d : Nat) (s : TypeSet) :
    Option Nat × TypeSet :=
  Entry.or_insert T d (TypeSet.entry T s)

/-- `TypeSet::get_or_insert_with` (src/lib.rs):
`self.entry().or_insert_with(default)`. -/
def TypeSet.get_or_insert_with {σ : Type} (T : RustType) (f : σ → σ × Nat)
    (s : TypeSet) (c : σ) : (Option Nat × TypeSet) × σ :=
  Entry.or_insert_with T f (TypeSet.entry T s) c

/-- `TypeSet::merge` (src/lib.rs): `self.0.extend(other.0)` — insert every
pair of `other`, in `other`'s (ascending key) order, into `self`. -/
def TypeSet.merge (s other : TypeSet) : TypeSet :=
  other.foldl (fun acc kv => insertPair kv.1 kv.2 acc) s

/-- The `Debug` rendering of src/lib.rs: collect each stored cell's recorded
type name and sort the names (`sort_unstable`); values' payloads are never
consulted. -/
def TypeSet.debugNames (s : TypeSet) : List String :=
  List.insertionSort (fun a b => a ≤ b) (s.map (fun kv => kv.2.name))

/-- Spec-side definition of `get_or_insert`, following §4.1's words:
"returns existing value if present, otherwise inserts `default` and returns
a reference to it" — to be compared against the source's entry-dispatching
definition. -/
def get_or_insert_spec (T : RustType) (d : Nat) (s : TypeSet) :
    Option Nat × TypeSet :=
  if TypeSet.contains T s then ((TypeSet.get T s).join, s)
  else (some d, insertPair (key T) (Value.new T d) s)

/-- Writing a payload through the `&mut T` handed out by
`TypeSet::get_mut`: the reference points into the cell stored at `T`'s key,
so the write replaces that cell's payload in place (a no-op when `get_mut`
returned `None`). -/
def writeThroughGetMut (T : RustType) (p : Nat) (s : TypeSet) : TypeSet :=
  match findKey (key T) s with
  | none => s
  | some cell => insertPair (key T) (Value.writeMut cell p) s

/-- The slot of type `U` is observationally the same in `s'` as in `s`. -/
def slotUnchanged (U : RustType) (s s' : TypeSet) : Prop :=
  TypeSet.contains U s' = TypeSet.contains U s ∧
    TypeSet.get U s' = TypeSet.get U s

/-! ### Lemmas about the backing map -/

theorem WF_def (s : TypeSet) :
    WF s ↔ List.Pairwise (fun a b => a.1 < b.1) s :=
  Iff.rfl

theorem findKey_insertPair (a k : Nat) (v : Value) (s : TypeSet) :
    findKey a (insertPair k v s) = if a = k then some v else findKey a s := by
  induction s with
  | nil =>
    by_cases h : a = k <;> simp [insertPair, findKey, h]
  | cons kv rest ih =>
    simp only [insertPair]
    rcases Nat.lt_trichotomy k kv.1 with hlt | heq | hgt
    · rw [if_pos hlt]
      by_cases h : a = k <;> simp [findKey, h]
    · rw [if_neg (by omega), if_pos heq]
      by_cases h : a = k
      · simp [findKey, h]
      · have h2 : a ≠ kv.1 := by omega
        simp [findKey, h, h2]
    · rw [if_neg (by omega), if_neg (by omega)]
      by_cases h : a = kv.1
      · have hne : a ≠ k := by omega
        rw [if_neg hne]
        simp [findKey, h]
      · simp [findKey, h, ih]

theorem findKey_isSome_iff (a : Nat) (s : TypeSet) :
    (findKey a s).isSome ↔ a ∈ s.map Prod.fst := by
  induction s with
  | nil => simp [findKey]
  | cons kv rest ih =>
    by_cases h : a = kv.1 <;> simp [findKey, h, ih]

theorem findKey_eq_none_iff (a : Nat) (s : TypeSet) :
    findKey a s = none ↔ a ∉ s.map Prod.fst := by
  rw [← findKey_isSome_iff]
  cases findKey a s <;> simp

theorem findKey_mem {a : Nat} {v : Value} {s : TypeSet}
    (h : findKey a s = some v) : (a, v) ∈ s := by
  induction s with
  | nil => simp [findKey] at h
  | cons kv rest ih =>
    by_cases hk : a = kv.1
    · simp only [findKey, if_pos hk] at h
      obtain rfl : kv.2 = v := by injection h
      simp [hk]
    · simp only [findKey, if_neg hk] at h
      exact List.mem_cons_of_mem _ (ih h)

theorem mem_insertPair {k : Nat} {v : Value} {p : Nat × Value} {s : TypeSet}
    (h : p ∈ insertPair k v s) : p = (k, v) ∨ p ∈ s := by
  induction s with
  | nil => simpa [insertPair] using h
  | cons kv rest ih =>
    simp only [insertPair] at h
    split at h
    · rcases List.mem_cons.1 h with h1 | h1
      · exact Or.inl h1
      · exact Or.inr h1
    · split at h
      · rcases List.mem_cons.1 h with h1 | h1
        · exact Or.inl h1
        · exact Or.inr (List.mem_cons_of_mem _ h1)
      · rcases List.mem_cons.1 h with h1 | h1
        · exact Or.inr (by simp [h1])
        · rcases ih h1 with h2 | h2
          · exact Or.inl h2
          · exact Or.inr (List.mem_cons_of_mem _ h2)

theorem WF_insertPair {k : Nat} {v : Value} {s : TypeSet} (h : WF s) :
    WF (insertPair k v s) := by
  induction s with
  | nil =>
    rw [WF_def]
    simp [insertPair]
  | cons kv rest ih =>
    rw [WF_def, List.pairwise_cons] at h
    obtain ⟨hhd, htl⟩ := h
    by_cases hlt : k < kv.1
    · simp only [insertPair, if_pos hlt]
      rw [WF_def, List.pairwise_cons]
      refine ⟨?_, List.pairwise_cons.2 ⟨hhd, htl⟩⟩
      intro b hb
      rcases List.mem_cons.1 hb with rfl | hb
      · omega
      · have := hhd b hb
        omega
    · by_cases heq : k = kv.1
      · simp only [insertPair, if_neg hlt, if_pos heq]
        rw [WF_def, List.pairwise_cons]
        refine ⟨?_, htl⟩
        intro b hb
        have := hhd b hb
        omega
      · simp only [insertPair, if_neg hlt, if_neg heq]
        rw [WF_def, List.pairwise_cons]
        refine ⟨?_, ih htl⟩
        intro b hb
        rcases mem_insertPair hb with rfl | hb
        · show kv.1 < k
          omega
        · exact hhd b hb

theorem Inv_insertPair {k : Nat} {v : Value} {s : TypeSet} (h : Inv s)
    (hc : v.any.ty.id = k) : Inv (insertPair k v s) := by
  intro p hp
  rcases mem_insertPair hp with rfl | hp
  · exact hc
  · exact h p hp

theorem insertPair_length_of_none {k : Nat} {v : Value} {s : TypeSet}
    (h : findKey k s = none) : (insertPair k v s).length = s.length + 1 := by
  induction s with
  | nil => simp [insertPair]
  | cons kv rest ih =>
    by_cases hk : k = kv.1
    · simp [findKey, hk] at h
    · simp only [findKey, if_neg hk] at h
      by_cases hlt : k < kv.1
      · simp [insertPair, hlt]
      · simp [insertPair, hlt, hk, ih h]

theorem insertPair_length_of_some {k : Nat} {v : Value} {s : TypeSet}
    (hWF : WF s) (h : (findKey k s).isSome) :
    (insertPair k v s).length = s.length := by
  induction s with
  | nil => simp [findKey] at h
  | cons kv rest ih =>
    rw [WF_def, List.pairwise_cons] at hWF
    obtain ⟨hhd, htl⟩ := hWF
    by_cases hk : k = kv.1
    · simp [insertPair, hk]
    · simp only [findKey, if_neg hk, findKey_isSome_iff] at h
      have hgt : ¬k < kv.1 := by
        intro hlt
        obtain ⟨p, hp, hp1⟩ := List.mem_map.1 h
        have := hhd p hp
        omega
      simp only [insertPair, if_neg hgt, if_neg hk]
      have : (insertPair k v rest).length = rest.length :=
        ih htl (by rw [findKey_isSome_iff]; exact h)
      simp [this]

theorem removeKey_sublist (k : Nat) (s : TypeSet) :
    (removeKey k s).Sublist s := by
  induction s with
  | nil => simp [removeKey]
  | cons kv rest ih =>
    simp only [removeKey]
    split
    · exact List.sublist_cons_self kv rest
    · exact List.Sublist.cons₂ kv ih

theorem WF_removeKey {s : TypeSet} (h : WF s) (k : Nat) :
    WF (removeKey k s) :=
  List.Pairwise.sublist (removeKey_sublist k s) h

theorem Inv_removeKey {s : TypeSet} (h : Inv s) (k : Nat) :
    Inv (removeKey k s) :=
  fun p hp => h p ((removeKey_sublist k s).mem hp)

theorem findKey_removeKey_ne {a k : Nat} (h : a ≠ k) (s : TypeSet) :
    findKey a (removeKey k s) = findKey a s := by
  induction s with
  | nil => simp [removeKey]
  | cons kv rest ih =>
    by_cases hk : k = kv.1
    · have : a ≠ kv.1 := hk ▸ h
      simp [removeKey, hk, findKey, this]
    · by_cases ha : a = kv.1 <;> simp [removeKey, hk, findKey, ha, ih]

theorem findKey_removeKey_self {s : TypeSet} (hWF : WF s) (k : Nat) :
    findKey k (removeKey k s) = none := by
  induction s with
  | nil => simp [removeKey, findKey]
  | cons kv rest ih =>
    rw [WF_def, List.pairwise_cons] at hWF
    obtain ⟨hhd, htl⟩ := hWF
    by_cases hk : k = kv.1
    · simp only [removeKey, if_pos hk]
      rw [findKey_eq_none_iff]
      intro hmem
      obtain ⟨p, hp, hp1⟩ := List.mem_map.1 hmem
      have := hhd p hp
      omega
    · simp [removeKey, hk, findKey, ih htl]

theorem removeKey_length_of_some {k : Nat} {s : TypeSet}
    (h : (findKey k s).isSome) : (removeKey k s).length + 1 = s.length := by
  induction s with
  | nil => simp [findKey] at h
  | cons kv rest ih =>
    by_cases hk : k = kv.1
    · simp [removeKey, hk]
    · simp only [findKey, if_neg hk] at h
      simp [removeKey, hk, ← ih h]

theorem removeKey_of_none {k : Nat} {s : TypeSet}
    (h : findKey k s = none) : removeKey k s = s := by
  induction s with
  | nil => simp [removeKey]
  | cons kv rest ih =>
    by_cases hk : k = kv.1
    · simp [findKey, hk] at h
    · simp only [findKey, if_neg hk] at h
      simp [removeKey, hk, ih h]

/-! ### Lemmas about `merge` -/

theorem findKey_merge (a : Nat) {other : TypeSet} (hB : WF other)
    (s : TypeSet) :
    findKey a (TypeSet.merge s other) =
      (findKey a other).or (findKey a s) := by
  induction other generalizing s with
  | nil => simp [TypeSet.merge, findKey, Option.or]
  | cons kv rest ih =>
    rw [WF_def, List.pairwise_cons] at hB
    obtain ⟨hhd, htl⟩ := hB
    have hstep : TypeSet.merge s (kv :: rest)
        = TypeSet.merge (insertPair kv.1 kv.2 s) rest := rfl
    rw [hstep, ih htl, findKey_insertPair]
    by_cases h : a = kv.1
    · have hnone : findKey kv.1 rest = none := by
        rw [findKey_eq_none_iff]
        intro hmem
        obtain ⟨p, hp, hp1⟩ := List.mem_map.1 hmem
        have := hhd p hp
        omega
      simp [findKey, h, hnone, Option.or]
    · simp [findKey, h]

theorem WF_merge {s : TypeSet} (hA : WF s) (other : TypeSet) :
    WF (TypeSet.merge s other) := by
  induction other generalizing s with
  | nil => exact hA
  | cons kv rest ih => exact ih (WF_insertPair hA)

theorem Inv_merge {s other : TypeSet} (hA : Inv s) (hB : Inv other) :
    Inv (TypeSet.merge s other) := by
  induction other generalizing s with
  | nil => exact hA
  | cons kv rest ih =>
    have hhd : kv.2.any.ty.id = kv.1 := hB kv (by simp)
    have htl : Inv rest := fun p hp => hB p (List.mem_cons_of_mem _ hp)
    exact ih (Inv_insertPair hA hhd) htl

theorem mem_keys_merge {other : TypeSet} (hB : WF other) (a : Nat)
    (s : TypeSet) :
    a ∈ (TypeSet.merge s other).map Prod.fst ↔
      a ∈ s.map Prod.fst ∨ a ∈ other.map Prod.fst := by
  rw [← findKey_isSome_iff, findKey_merge a hB, ← findKey_isSome_iff,
    ← findKey_isSome_iff]
  cases findKey a other <;> cases findKey a s <;> simp [Option.or]

theorem len_merge {A B : TypeSet} (hA : WF A) (hB : WF B) :
    (TypeSet.merge A B).length =
      ((A.map Prod.fst).toFinset ∪ (B.map Prod.fst).toFinset).card := by
  have hWFm : WF (TypeSet.merge A B) := WF_merge hA B
  have hnodup : ((TypeSet.merge A B).map Prod.fst).Nodup := by
    have := (List.pairwise_map (f := Prod.fst)
      (R := fun a b : Nat => a < b)).2 hWFm
    exact this.imp Nat.ne_of_lt
  have hset : ((TypeSet.merge A B).map Prod.fst).toFinset
      = (A.map Prod.fst).toFinset ∪ (B.map Prod.fst).toFinset := by
    ext a
    simp only [List.mem_toFinset, Finset.mem_union]
    exact mem_keys_merge hB a A
  rw [← hset, List.toFinset_card_of_nodup hnodup, List.length_map]

/-! ### The key–payload invariant and downcasts -/

theorem downcast_of_inv {T : RustType} {s : TypeSet} {cell : Value}
    (hInv : Inv s) (h : findKey (key T) s = some cell) :
    Value.downcast_ref T cell = some cell.any.val ∧
      Value.downcast_mut T cell = some cell.any.val ∧
      Value.downcast T cell = some cell.any.val := by
  have hid : cell.any.ty.id = T.id := hInv (key T, cell) (findKey_mem h)
  refine ⟨?_, ?_, ?_⟩ <;>
    simp [Value.downcast_ref, Value.downcast_mut, Value.downcast, hid]

theorem downcast_new (T : RustType) (v : Nat) :
    Value.downcast_ref T (Value.new T v) = some v ∧
      Value.downcast_mut T (Value.new T v) = some v ∧
      Value.downcast T (Value.new T v) = some v := by
  refine ⟨?_, ?_, ?_⟩ <;>
    simp [Value.downcast_ref, Value.downcast_mut, Value.downcast, Value.new]

/-! ### Shapes of the entry-based operations -/

theorem entry_of_none {T : RustType} {s : TypeSet}
    (h : findKey (key T) s = none) : TypeSet.entry T s = .vacant s := by
  simp [TypeSet.entry, h]

theorem entry_of_some {T : RustType} {s : TypeSet} {cell : Value}
    (h : findKey (key T) s = some cell) :
    TypeSet.entry T s = .occupied cell s := by
  simp [TypeSet.entry, h]

theorem entry_occupied_inv {T : RustType} {s s₂ : TypeSet} {cell : Value}
    (h : TypeSet.entry T s = .occupied cell s₂) :
    findKey (key T) s = some cell ∧ s₂ = s := by
  unfold TypeSet.entry at h
  cases heq : findKey (key T) s <;> rw [heq] at h
  · exact absurd h (by simp)
  · refine ⟨?_, ?_⟩ <;> injection h with h1 h2 <;> simp_all

theorem entry_vacant_inv {T : RustType} {s s₂ : TypeSet}
    (h : TypeSet.entry T s = .vacant s₂) :
    findKey (key T) s = none ∧ s₂ = s := by
  unfold TypeSet.entry at h
  cases heq : findKey (key T) s <;> rw [heq] at h
  · refine ⟨rfl, ?_⟩
    injection h with h1
    exact h1.symm
  · exact absurd h (by simp)

theorem insert_snd (T : RustType) (v : Nat) (s : TypeSet) :
    (TypeSet.insert T v s).2 = insertPair (key T) (Value.new T v) s := by
  unfold TypeSet.insert TypeSet.entry
  cases findKey (key T) s <;>
    simp [Entry.insert, VacantEntry.insert, OccupiedEntry.insert]

theorem take_snd_of_none {T : RustType} {s : TypeSet}
    (h : findKey (key T) s = none) : (TypeSet.take T s).2 = s := by
  rw [TypeSet.take, entry_of_none h]
  simp [Entry.take]

theorem take_snd_of_some {T : RustType} {s : TypeSet} {cell : Value}
    (h : findKey (key T) s = some cell) :
    (TypeSet.take T s).2 = removeKey (key T) s := by
  rw [TypeSet.take, entry_of_some h]
  simp [Entry.take, OccupiedEntry.remove]

theorem or_insert_of_none {T : RustType} {s : TypeSet} (d : Nat)
    (h : findKey (key T) s = none) :
    TypeSet.get_or_insert T d s =
      (Value.downcast_mut T (Value.new T d),
        insertPair (key T) (Value.new T d) s) := by
  rw [TypeSet.get_or_insert, entry_of_none h]
  rfl

theorem or_insert_of_some {T : RustType} {s : TypeSet} {cell : Value}
    (d : Nat) (h : findKey (key T) s = some cell) :
    TypeSet.get_or_insert T d s = (Value.downcast_mut T cell, s) := by
  rw [TypeSet.get_or_insert, entry_of_some h]
  rfl

theorem or_insert_with_of_none {σ : Type} {T : RustType} {s : TypeSet}
    (f : σ → σ × Nat) (c : σ) (h : findKey (key T) s = none) :
    TypeSet.get_or_insert_with T f s c =
      ((Value.downcast_mut T (Value.new T (f c).2),
        insertPair (key T) (Value.new T (f c).2) s), (f c).1) := by
  rw [TypeSet.get_or_insert_with, entry_of_none h]
  rfl

theorem or_insert_with_of_some {σ : Type} {T : RustType} {s : TypeSet}
    {cell : Value} (f : σ → σ × Nat) (c : σ)
    (h : findKey (key T) s = some cell) :
    TypeSet.get_or_insert_with T f s c =
      ((Value.downcast_mut T cell, s), c) := by
  rw [TypeSet.get_or_insert_with, entry_of_some h]
  rfl

theorem and_modify_of_none {σ : Type} {T : RustType} {s : TypeSet}
    (g : σ → Nat → σ × Nat) (c : σ) (h : findKey (key T) s = none) :
    Entry.and_modify T g (TypeSet.entry T s) c = some (.vacant s, c) := by
  rw [entry_of_none h]
  rfl

theorem and_modify_of_some {σ : Type} {T : RustType} {s : TypeSet}
    {cell : Value} (g : σ → Nat → σ × Nat) (c : σ)
    (h : findKey (key T) s = some cell) (hd : cell.any.ty.id = T.id) :
    Entry.and_modify T g (TypeSet.entry T s) c =
      some (.occupied (Value.writeMut cell (g c cell.any.val).2)
        (insertPair (key T) (Value.writeMut cell (g c cell.any.val).2) s),
        (g c cell.any.val).1) := by
  rw [entry_of_some h]
  simp [Entry.and_modify, OccupiedEntry.get_mut, Value.downcast_mut, hd]

theorem and_modify_inversion {σ : Type} {T : RustType}
    {g : σ → Nat → σ × Nat} {s : TypeSet} {c c' : σ} {e : Entry}
    (h : Entry.and_modify T g (TypeSet.entry T s) c = some (e, c')) :
    (e = .vacant s ∧ c' = c) ∨
      ∃ cell p, findKey (key T) s = some cell ∧
        Value.downcast_mut T cell = some p ∧
        e = .occupied (Value.writeMut cell (g c p).2)
              (insertPair (key T) (Value.writeMut cell (g c p).2) s) ∧
        c' = (g c p).1 := by
  unfold TypeSet.entry at h
  cases heq : findKey (key T) s <;> rw [heq] at h
  · left
    simp only [Entry.and_modify, Option.some.injEq, Prod.mk.injEq] at h
    exact ⟨h.1.symm, h.2.symm⟩
  · right
    rename_i cell
    simp only [Entry.and_modify, OccupiedEntry.get_mut] at h
    cases hd : Value.downcast_mut T cell <;> rw [hd] at h
    · simp at h
    · rename_i p
      simp only [Option.some.injEq, Prod.mk.injEq] at h
      exact ⟨cell, p, rfl, hd, h.1.symm, h.2.symm⟩

/-! ### Reachable states and the global invariant -/

/-- A state is well-formed when the backing map is a real `BTreeMap` (keys
strictly sorted) and the key–payload invariant holds. -/
def GoodState (s : TypeSet) : Prop :=
  WF s ∧ Inv s

/-- The `TypeSet` states reachable through the public API: `new`, `insert`,
`with`, `take`, `merge`, and the Entry operations (both the combinators and
the raw vacant/occupied operations, including through `and_modify`). -/
inductive Reachable : TypeSet → Prop where
  | new : Reachable TypeSet.new
  | insert {s : TypeSet} (T : RustType) (v : Nat) :
      Reachable s → Reachable (TypeSet.insert T v s).2
  | withVal {s : TypeSet} (T : RustType) (v : Nat) :
      Reachable s → Reachable (TypeSet.with T v s)
  | take {s : TypeSet} (T : RustType) :
      Reachable s → Reachable (TypeSet.take T s).2
  | merge {s o : TypeSet} :
      Reachable s → Reachable o → Reachable (TypeSet.merge s o)
  | orInsert {s : TypeSet} (T : RustType) (d : Nat) :
      Reachable s → Reachable (TypeSet.get_or_insert T d s).2
  | orInsertWith {σ : Type} {s : TypeSet} (T : RustType) (f : σ → σ × Nat)
      (c : σ) :
      Reachable s → Reachable (TypeSet.get_or_insert_with T f s c).1.2
  | vacantInsert {s s₂ : TypeSet} (T : RustType) (v : Nat) :
      Reachable s → TypeSet.entry T s = .vacant s₂ →
      Reachable (VacantEntry.insert T v s₂).2
  | occupiedInsert {s s₂ : TypeSet} {cell : Value} (T : RustType) (v : Nat) :
      Reachable s → TypeSet.entry T s = .occupied cell s₂ →
      Reachable (OccupiedEntry.insert T v cell s₂).2
  | occupiedRemove {s s₂ : TypeSet} {cell : Value} (T : RustType) :
      Reachable s → TypeSet.entry T s = .occupied cell s₂ →
      Reachable (OccupiedEntry.remove T cell s₂).2
  | andModify {σ : Type} {s : TypeSet} {e : Entry} {c' : σ}
      (T : RustType) (g : σ → Nat → σ × Nat) (c : σ) :
      Reachable s → Entry.and_modify T g (TypeSet.entry T s) c = some (e, c') →
      Reachable (entrySet e)
  | andModifyOrInsert {σ : Type} {s : TypeSet} {e : Entry} {c' : σ}
      (T : RustType) (g : σ → Nat → σ × Nat) (c : σ) (d : Nat) :
      Reachable s → Entry.and_modify T g (TypeSet.entry T s) c = some (e, c') →
      Reachable (Entry.or_insert T d e).2
  | andModifyOrInsertWith {σ τ : Type} {s : TypeSet} {e : Entry} {c' : σ}
      (T : RustType) (g : σ → Nat → σ × Nat) (c : σ) (f : τ → τ × Nat)
      (cf : τ) :
      Reachable s → Entry.and_modify T g (TypeSet.entry T s) c = some (e, c') →
      Reachable (Entry.or_insert_with T f e cf).1.2

theorem GoodState.insertPairT {s : TypeSet} (h : GoodState s)
    (T : RustType) (v : Nat) :
    GoodState (insertPair (key T) (Value.new T v) s) :=
  ⟨WF_insertPair h.1, Inv_insertPair h.2 rfl⟩

theorem GoodState.removeKeyT {s : TypeSet} (h : GoodState s) (k : Nat) :
    GoodState (removeKey k s) :=
  ⟨WF_removeKey h.1 k, Inv_removeKey h.2 k⟩

theorem and_modify_goodState {σ : Type} {T : RustType}
    {g : σ → Nat → σ × Nat} {s : TypeSet} {c c' : σ} {e : Entry}
    (hs : GoodState s)
    (h : Entry.and_modify T g (TypeSet.entry T s) c = some (e, c')) :
    GoodState (entrySet e) := by
  rcases and_modify_inversion h with ⟨rfl, -⟩ | ⟨cell, p, hfind, -, rfl, -⟩
  · exact hs
  · have hid : cell.any.ty.id = key T := hs.2 (key T, cell) (findKey_mem hfind)
    exact ⟨WF_insertPair hs.1, Inv_insertPair hs.2 hid⟩

theorem reachable_goodState {s : TypeSet} (h : Reachable s) : GoodState s := by
  induction h with
  | new =>
    exact ⟨List.Pairwise.nil, fun kv hkv => absurd hkv (by simp [TypeSet.new])⟩
  | @insert s T v _ ih =>
    rw [insert_snd]
    exact ih.insertPairT T v
  | @withVal s T v _ ih =>
    rw [TypeSet.with, insert_snd]
    exact ih.insertPairT T v
  | @take s T _ ih =>
    cases heq : findKey (key T) s
    case none => rw [take_snd_of_none heq]; exact ih
    case some => rw [take_snd_of_some heq]; exact ih.removeKeyT (key T)
  | merge _ _ ihs iho =>
    exact ⟨WF_merge ihs.1 _, Inv_merge ihs.2 iho.2⟩
  | @orInsert s T d _ ih =>
    cases heq : findKey (key T) s
    case none => rw [or_insert_of_none d heq]; exact ih.insertPairT T d
    case some => rw [or_insert_of_some d heq]; exact ih
  | @orInsertWith σ s T f c _ ih =>
    cases heq : findKey (key T) s
    case none => rw [or_insert_with_of_none f c heq]; exact ih.insertPairT T _
    case some => rw [or_insert_with_of_some f c heq]; exact ih
  | @vacantInsert s s₂ T v _ hentry ih =>
    obtain ⟨-, rfl⟩ := entry_vacant_inv hentry
    exact ih.insertPairT T v
  | @occupiedInsert s s₂ cell T v _ hentry ih =>
    obtain ⟨-, rfl⟩ := entry_occupied_inv hentry
    exact ih.insertPairT T v
  | @occupiedRemove s s₂ cell T _ hentry ih =>
    obtain ⟨-, rfl⟩ := entry_occupied_inv hentry
    exact ih.removeKeyT (key T)
  | @andModify σ s e c' T g c _ hmod ih =>
    exact and_modify_goodState ih hmod
  | @andModifyOrInsert σ s e c' T g c d _ hmod ih =>
    have he := and_modify_goodState ih hmod
    rcases and_modify_inversion hmod with ⟨rfl, -⟩ | ⟨cell, p, hfind, -, rfl, -⟩
    · exact GoodState.insertPairT he T d
    · exact he
  | @andModifyOrInsertWith σ τ s e c' T g c f cf _ hmod ih =>
    have he := and_modify_goodState ih hmod
    rcases and_modify_inversion hmod with ⟨rfl, -⟩ | ⟨cell, p, hfind, -, rfl, -⟩
    · exact GoodState.insertPairT he T _
    · exact he

instance decWF (s : TypeSet) : Decidable (WF s) :=
  inferInstanceAs
    (Decidable (List.Pairwise (fun a b : Nat × Value => a.1 < b.1) s))

instance decInv (s : TypeSet) : Decidable (Inv s) :=
  inferInstanceAs (Decidable (∀ kv ∈ s, kv.2.any.ty.id = kv.1))

theorem downcast_eq_ref (T : RustType) (v : Value) :
    Value.downcast T v = Value.downcast_ref T v :=
  rfl

theorem downcast_mut_eq_ref (T : RustType) (v : Value) :
    Value.downcast_mut T v = Value.downcast_ref T v :=
  rfl

/-- C2: over every reachable `TypeSet` state — any sequence of `new`,
`insert`, `with`, `take`, `merge` and Entry operations — every stored key
holds exactly one cell, that cell's erased payload's dynamic type is exactly
the type whose `TypeId` it is stored under, so at most one value per
distinct type is stored and `len()` equals the number of distinct types
currently stored. -/
theorem C2_reachable_invariant {s : TypeSet} (h : Reachable s) :
    (∀ kv ∈ s, kv.2.any.ty.id = kv.1) ∧
      (s.map Prod.fst).Nodup ∧
      TypeSet.len s = (s.map Prod.fst).toFinset.card := by
  obtain ⟨hWF, hInv⟩ := reachable_goodState h
  have hnodup : (s.map Prod.fst).Nodup := by
    have hp := (List.pairwise_map (f := Prod.fst)
      (R := fun a b : Nat => a < b)).2 hWF
    exact hp.imp Nat.ne_of_lt
  refine ⟨hInv, hnodup, ?_⟩
  rw [TypeSet.len, List.toFinset_card_of_nodup hnodup, List.length_map]

/-- Witness for C2 at the concrete reachable state `new().insert(5 : A)`. -/
theorem C2_reachable_invariant_witness :
    (∀ kv ∈ (TypeSet.insert ⟨0, "A"⟩ 5 TypeSet.new).2,
        kv.2.any.ty.id = kv.1) ∧
      (((TypeSet.insert ⟨0, "A"⟩ 5 TypeSet.new).2.map Prod.fst).Nodup) ∧
      TypeSet.len (TypeSet.insert ⟨0, "A"⟩ 5 TypeSet.new).2
        = ((TypeSet.insert ⟨0, "A"⟩ 5 TypeSet.new).2.map Prod.fst).toFinset.card :=
  C2_reachable_invariant (Reachable.insert ⟨0, "A"⟩ 5 Reachable.new)

/-- C1: inserting for a type with no stored value returns `None` and grows
`len()` by exactly one; inserting when a value `p` of the type is already
stored returns `Some(p)`, leaves `len()` unchanged, and the set afterwards
stores the new value; likewise `OccupiedEntry::insert` returns the old
value and leaves the slot occupied holding the new value. -/
theorem C1_insert_replace (T : RustType) (v : Nat) (s : TypeSet)
    (hWF : WF s) :
    (TypeSet.contains T s = false →
      (TypeSet.insert T v s).1 = none ∧
      TypeSet.len (TypeSet.insert T v s).2 = TypeSet.len s + 1) ∧
    (∀ p : Nat, TypeSet.get T s = some (some p) →
      (TypeSet.insert T v s).1 = some (some p) ∧
      TypeSet.len (TypeSet.insert T v s).2 = TypeSet.len s ∧
      TypeSet.get T (TypeSet.insert T v s).2 = some (some v)) ∧
    (∀ (cell : Value) (s₂ : TypeSet) (p : Nat),
      TypeSet.entry T s = .occupied cell s₂ →
      Value.downcast T cell = some p →
      (OccupiedEntry.insert T v cell s₂).1 = some p ∧
      TypeSet.get T (OccupiedEntry.insert T v cell s₂).2 = some (some v)) := by
  refine ⟨?_, ?_, ?_⟩
  · intro hc
    rw [TypeSet.contains] at hc
    have hnone : findKey (key T) s = none := by
      cases hfk : findKey (key T) s
      · rfl
      · rw [hfk] at hc
        simp at hc
    refine ⟨?_, ?_⟩
    · rw [TypeSet.insert, entry_of_none hnone]
      rfl
    · rw [insert_snd, TypeSet.len, TypeSet.len, insertPair_length_of_none hnone]
  · intro p hp
    rw [TypeSet.get] at hp
    cases hfk : findKey (key T) s
    · rw [hfk] at hp
      simp at hp
    · rename_i cell
      rw [hfk] at hp
      simp only [Option.map_some', Option.some.injEq] at hp
      refine ⟨?_, ?_, ?_⟩
      · rw [TypeSet.insert, entry_of_some hfk]
        simp only [Entry.insert, OccupiedEntry.insert, downcast_eq_ref]
        rw [hp]
      · rw [insert_snd, TypeSet.len, TypeSet.len,
          insertPair_length_of_some hWF (by simp [hfk])]
      · rw [TypeSet.get, insert_snd, findKey_insertPair]
        simp [Value.downcast_ref, Value.new]
  · intro cell s₂ p hocc hdc
    refine ⟨?_, ?_⟩
    · simp [OccupiedEntry.insert, hdc]
    · show TypeSet.get T (insertPair (key T) (Value.new T v) s₂) = some (some v)
      rw [TypeSet.get, findKey_insertPair]
      simp [Value.downcast_ref, Value.new]

/-- Witness for C1 at the empty set and at a one-element set. -/
theorem C1_insert_replace_witness :
    (TypeSet.insert ⟨0, "A"⟩ 7 TypeSet.new).1 = none ∧
      TypeSet.len (TypeSet.insert ⟨0, "A"⟩ 7 TypeSet.new).2
        = TypeSet.len TypeSet.new + 1 :=
  (C1_insert_replace ⟨0, "A"⟩ 7 TypeSet.new (by decide)).1 (by decide)

/-- C4: immediately after `insert::<T>(v)`, `get::<T>()` returns the freshly
stored value `v` and `contains::<T>()` is true (both, being `&self` reads,
are functions of the state alone and leave it unchanged). -/
theorem C4_get_after_insert (T : RustType) (v : Nat) (s : TypeSet) :
    TypeSet.get T (TypeSet.insert T v s).2 = some (some v) ∧
      TypeSet.contains T (TypeSet.insert T v s).2 = true := by
  rw [insert_snd]
  refine ⟨?_, ?_⟩
  · rw [TypeSet.get, findKey_insertPair]
    simp [Value.downcast_ref, Value.new]
  · rw [TypeSet.contains, findKey_insertPair]
    simp

/-- C5: `take::<T>()` on a set storing `v` for `T` returns `Some(v)`,
removes `T`'s key entirely — afterwards `contains` is false, `get` is
absent and `len()` has dropped by one — and a second consecutive `take`
returns `None`; on a set without `T`, `take` returns `None` and leaves the
set unchanged: absence is a normal result, not an error. -/
theorem C5_take_remove (T : RustType) (s : TypeSet) (hWF : WF s) :
    (∀ p : Nat, TypeSet.get T s = some (some p) →
      (TypeSet.take T s).1 = some (some p) ∧
      TypeSet.contains T (TypeSet.take T s).2 = false ∧
      TypeSet.get T (TypeSet.take T s).2 = none ∧
      TypeSet.len (TypeSet.take T s).2 + 1 = TypeSet.len s ∧
      TypeSet.take T (TypeSet.take T s).2 = (none, (TypeSet.take T s).2)) ∧
    (TypeSet.contains T s = false → TypeSet.take T s = (none, s)) := by
  refine ⟨?_, ?_⟩
  · intro p hp
    rw [TypeSet.get] at hp
    cases hfk : findKey (key T) s
    · rw [hfk] at hp
      simp at hp
    · rename_i cell
      rw [hfk] at hp
      simp only [Option.map_some', Option.some.injEq] at hp
      have hsnd := take_snd_of_some hfk
      have hgone : findKey (key T) (TypeSet.take T s).2 = none := by
        rw [hsnd]
        exact findKey_removeKey_self hWF (key T)
      refine ⟨?_, ?_, ?_, ?_, ?_⟩
      · rw [TypeSet.take, entry_of_some hfk]
        simp only [Entry.take, OccupiedEntry.remove, downcast_eq_ref]
        rw [hp]
      · rw [TypeSet.contains, hgone]
        rfl
      · rw [TypeSet.get, hgone]
        rfl
      · rw [hsnd, TypeSet.len, TypeSet.len,
          removeKey_length_of_some (by simp [hfk])]
      · rw [TypeSet.take, entry_of_none hgone]
        rfl
  · intro hc
    rw [TypeSet.contains] at hc
    have hnone : findKey (key T) s = none := by
      cases hfk : findKey (key T) s
      · rfl
      · rw [hfk] at hc
        simp at hc
    rw [TypeSet.take, entry_of_none hnone]
    rfl

/-- Witness for C5 at the one-element set `new().with(5 : A)`. -/
theorem C5_take_remove_witness :
    (TypeSet.take ⟨0, "A"⟩ (TypeSet.with ⟨0, "A"⟩ 5 TypeSet.new)).1
        = some (some 5) ∧
      TypeSet.contains ⟨0, "A"⟩
        (TypeSet.take ⟨0, "A"⟩ (TypeSet.with ⟨0, "A"⟩ 5 TypeSet.new)).2
        = false :=
  let h := (C5_take_remove ⟨0, "A"⟩ (TypeSet.with ⟨0, "A"⟩ 5 TypeSet.new)
    (by decide)).1 5 (by decide)
  ⟨h.1, h.2.1⟩

/-- C3: under the key–payload invariant, the downcast handed to `unwrap!`
in every accessor — `get`, `get_mut`, `take`, and the `OccupiedEntry`
operations `get`, `get_mut`, `insert`, `remove`, `into_mut` (and through
`and_modify`) — never is `None`, so the debug-mode assertion never fires
and the release-mode `unwrap_unchecked` is sound. -/
theorem C3_downcast_unreachable (T : RustType) (v : Nat) (s : TypeSet)
    (hInv : Inv s) :
    TypeSet.get T s ≠ some none ∧
    TypeSet.get_mut T s ≠ some none ∧
    (TypeSet.take T s).1 ≠ some none ∧
    (TypeSet.insert T v s).1 ≠ some none ∧
    (∀ (cell : Value) (s₂ : TypeSet), TypeSet.entry T s = .occupied cell s₂ →
      OccupiedEntry.get T cell ≠ none ∧
      OccupiedEntry.get_mut T cell ≠ none ∧
      OccupiedEntry.into_mut T cell ≠ none ∧
      (OccupiedEntry.insert T v cell s₂).1 ≠ none ∧
      (OccupiedEntry.remove T cell s₂).1 ≠ none) ∧
    (∀ {σ : Type} (g : σ → Nat → σ × Nat) (c : σ),
      Entry.and_modify T g (TypeSet.entry T s) c ≠ none) := by
  cases hfk : findKey (key T) s
  · refine ⟨?_, ?_, ?_, ?_, ?_, ?_⟩
    · rw [TypeSet.get, hfk]
      simp
    · rw [TypeSet.get_mut, hfk]
      simp
    · rw [TypeSet.take, entry_of_none hfk]
      simp [Entry.take]
    · rw [TypeSet.insert, entry_of_none hfk]
      simp [Entry.insert]
    · intro cell s₂ hocc
      rw [entry_of_none hfk] at hocc
      exact absurd hocc (by simp)
    · intro σ g c
      rw [and_modify_of_none g c hfk]
      simp
  · rename_i cell
    obtain ⟨hdr, hdm, hdc⟩ := downcast_of_inv hInv hfk
    refine ⟨?_, ?_, ?_, ?_, ?_, ?_⟩
    · rw [TypeSet.get, hfk]
      simp [hdr]
    · rw [TypeSet.get_mut, hfk]
      simp [hdm]
    · rw [TypeSet.take, entry_of_some hfk]
      simp [Entry.take, OccupiedEntry.remove, hdc]
    · rw [TypeSet.insert, entry_of_some hfk]
      simp [Entry.insert, OccupiedEntry.insert, hdc]
    · intro cell₂ s₂ hocc
      obtain ⟨hfk₂, -⟩ := entry_occupied_inv hocc
      rw [hfk] at hfk₂
      obtain rfl : cell = cell₂ := by injection hfk₂
      exact ⟨by simp [OccupiedEntry.get, hdr],
        by simp [OccupiedEntry.get_mut, hdm],
        by simp [OccupiedEntry.into_mut, hdm],
        by simp [OccupiedEntry.insert, hdc],
        by simp [OccupiedEntry.remove, hdc]⟩
    · intro σ g c
      have hid : cell.any.ty.id = T.id := hInv (key T, cell) (findKey_mem hfk)
      rw [and_modify_of_some g c hfk hid]
      simp

/-- Witness for C3 at the one-element set `new().with(5 : A)`. -/
theorem C3_downcast_unreachable_witness :
    TypeSet.get ⟨0, "A"⟩ (TypeSet.with ⟨0, "A"⟩ 5 TypeSet.new)
        ≠ some none ∧
      (TypeSet.take ⟨0, "A"⟩ (TypeSet.with ⟨0, "A"⟩ 5 TypeSet.new)).1
        ≠ some none :=
  let h := C3_downcast_unreachable ⟨0, "A"⟩ 9
    (TypeSet.with ⟨0, "A"⟩ 5 TypeSet.new) (by decide)
  ⟨h.1, h.2.2.1⟩

/-- C6: after `A.merge(B)` (which consumes `B`), a type present only in `B`
or in both sets holds `B`'s value, a type absent from `B` keeps whatever
`A` stored (in particular `A`'s value when present only in `A`), and the
length is the cardinality of the union of the two key sets. -/
theorem C6_merge (A B : TypeSet) (hA : WF A) (hB : WF B) :
    (∀ U : RustType, TypeSet.contains U B = false →
      TypeSet.get U (TypeSet.merge A B) = TypeSet.get U A) ∧
    (∀ (U : RustType) (p : Option Nat), TypeSet.get U B = some p →
      TypeSet.get U (TypeSet.merge A B) = some p) ∧
    TypeSet.len (TypeSet.merge A B)
      = ((A.map Prod.fst).toFinset ∪ (B.map Prod.fst).toFinset).card := by
  refine ⟨?_, ?_, ?_⟩
  · intro U hc
    rw [TypeSet.contains] at hc
    have hnone : findKey (key U) B = none := by
      cases hfk : findKey (key U) B
      · rfl
      · rw [hfk] at hc
        simp at hc
    rw [TypeSet.get, TypeSet.get, findKey_merge (key U) hB, hnone]
    rfl
  · intro U p hp
    rw [TypeSet.get] at hp
    cases hfk : findKey (key U) B
    · rw [hfk] at hp
      simp at hp
    · rename_i cell
      rw [hfk] at hp
      rw [TypeSet.get, findKey_merge (key U) hB, hfk]
      exact hp
  · exact len_merge hA hB

/-- Witness for C6 merging `{A ↦ 8, S ↦ 1}` with `{U ↦ 32, S ↦ 2}`. -/
theorem C6_merge_witness :
    TypeSet.get ⟨2, "S"⟩
        (TypeSet.merge
          (TypeSet.with ⟨2, "S"⟩ 1 (TypeSet.with ⟨0, "A"⟩ 8 TypeSet.new))
          (TypeSet.with ⟨2, "S"⟩ 2 (TypeSet.with ⟨1, "U"⟩ 32 TypeSet.new)))
      = some (some 2) :=
  (C6_merge
    (TypeSet.with ⟨2, "S"⟩ 1 (TypeSet.with ⟨0, "A"⟩ 8 TypeSet.new))
    (TypeSet.with ⟨2, "S"⟩ 2 (TypeSet.with ⟨1, "U"⟩ 32 TypeSet.new))
    (by decide) (by decide)).2.1 ⟨2, "S"⟩ (some 2) (by decide)

/-- C8: `set.get_or_insert(d)` is the same operation as
`set.entry::<T>().or_insert(d)` (which dispatches Occupied to `into_mut`
and Vacant to `insert`), and both coincide with the spec-side description:
when `T` is present the stored value is returned and `d` is discarded with
the set untouched; when `T` is absent `d` is stored and returned. -/
theorem C8_get_or_insert_refines (T : RustType) (d : Nat) (s : TypeSet) :
    TypeSet.get_or_insert T d s = Entry.or_insert T d (TypeSet.entry T s) ∧
      TypeSet.get_or_insert T d s = get_or_insert_spec T d s := by
  refine ⟨rfl, ?_⟩
  cases hfk : findKey (key T) s
  · rw [or_insert_of_none d hfk, get_or_insert_spec]
    rw [if_neg (by simp [TypeSet.contains, hfk])]
    simp [Value.downcast_mut, Value.new]
  · rename_i cell
    rw [or_insert_of_some d hfk, get_or_insert_spec]
    rw [if_pos (by simp [TypeSet.contains, hfk])]
    rw [TypeSet.get, hfk]
    simp [downcast_mut_eq_ref]

/-- C7: `or_insert_with(f)` (hence `get_or_insert_with(f)`) applies `f`
exactly once on a vacant slot and never on an occupied one; `and_modify(g)`
applies `g` exactly once, in place, on an Occupied entry and never on a
Vacant one, returning the entry with its state unchanged, so
`entry().and_modify(g).or_insert_with(f)` on a vacant slot never invokes
`g`.  Closures are in state-passing style; with the counting instances the
final counter exposes the number of invocations. -/
theorem C7_lazy_closures (T : RustType) :
    (∀ (cell : Value) (s : TypeSet) {σ : Type} (f fo : σ → σ × Nat) (c : σ),
      Entry.or_insert_with T f (.occupied cell s) c
          = ((OccupiedEntry.into_mut T cell, s), c) ∧
        Entry.or_insert_with T f (.occupied cell s) c
          = Entry.or_insert_with T fo (.occupied cell s) c) ∧
    (∀ (s : TypeSet) (vf : Nat → Nat) (c : Nat),
      (Entry.or_insert_with T (fun n => (n + 1, vf n)) (.vacant s) c).2
          = c + 1 ∧
        (Entry.or_insert_with T (fun n => (n + 1, vf n)) (.vacant s) c).1
          = VacantEntry.insert T (vf c) s) ∧
    (∀ s : TypeSet, TypeSet.contains T s = true →
      ∀ {σ : Type} (f : σ → σ × Nat) (c : σ),
        (TypeSet.get_or_insert_with T f s c).2 = c) ∧
    (∀ (cell : Value) (s : TypeSet), cell.any.ty.id = T.id →
      ∀ (gf : Nat → Nat → Nat) (c : Nat),
        Entry.and_modify T (fun n p => (n + 1, gf n p)) (.occupied cell s) c
          = some (.occupied (Value.writeMut cell (gf c cell.any.val))
              (insertPair (key T)
                (Value.writeMut cell (gf c cell.any.val)) s),
              c + 1)) ∧
    (∀ (s : TypeSet) {σ : Type} (g : σ → Nat → σ × Nat) (c : σ),
      Entry.and_modify T g (.vacant s) c = some (.vacant s, c)) ∧
    (∀ (s : TypeSet) (c : Nat) {σ : Type} (f : σ → σ × Nat) (cf : σ)
        (gf : Nat → Nat → Nat),
      (Entry.and_modify T (fun n p => (n + 1, gf n p)) (.vacant s) c).map
          (fun ec => ((Entry.or_insert_with T f ec.1 cf).1, ec.2))
        = some ((Entry.or_insert_with T f (.vacant s) cf).1, c)) := by
  refine ⟨?_, ?_, ?_, ?_, ?_, ?_⟩
  · intro cell s σ f fo c
    exact ⟨rfl, rfl⟩
  · intro s vf c
    exact ⟨rfl, rfl⟩
  · intro s hc σ f c
    rw [TypeSet.contains] at hc
    cases hfk : findKey (key T) s
    · rw [hfk] at hc
      simp at hc
    · rw [or_insert_with_of_some f c hfk]
  · intro cell s hc gf c
    simp [Entry.and_modify, OccupiedEntry.get_mut, Value.downcast_mut, hc]
  · intro s σ g c
    rfl
  · intro s c σ f cf gf
    rfl

/-- Witness for C7: on the occupied one-element set the closure state is
untouched by `get_or_insert_with`. -/
theorem C7_lazy_closures_witness :
    (TypeSet.get_or_insert_with ⟨0, "A"⟩ (fun n : Nat => (n + 1, 9))
        (TypeSet.with ⟨0, "A"⟩ 5 TypeSet.new) 0).2 = 0 :=
  (C7_lazy_closures ⟨0, "A"⟩).2.2.1
    (TypeSet.with ⟨0, "A"⟩ 5 TypeSet.new) (by decide)
    (fun n : Nat => (n + 1, 9)) 0

/-- C9: the Debug rendering lists exactly the recorded human-readable names
of the contained types, in sorted order, so it is determined by the set of
contained type names alone — independent of insertion order and of the
stored values' contents, which it never consults. -/
theorem C9_debug_names (s₁ s₂ : TypeSet) :
    List.Sorted (fun a b => a ≤ b) (TypeSet.debugNames s₁) ∧
      (TypeSet.debugNames s₁).Perm (s₁.map (fun kv => kv.2.name)) ∧
      ((s₁.map (fun kv => kv.2.name)).Perm (s₂.map (fun kv => kv.2.name)) →
        TypeSet.debugNames s₁ = TypeSet.debugNames s₂) := by
  refine ⟨List.sorted_insertionSort _ _, List.perm_insertionSort _ _, ?_⟩
  intro hperm
  exact List.eq_of_perm_of_sorted
    ((List.perm_insertionSort _ _).trans
      (hperm.trans (List.perm_insertionSort _ _).symm))
    (List.sorted_insertionSort _ _) (List.sorted_insertionSort _ _)

/-- Witness for C9: two states holding the same two types in opposite
orders render identically. -/
theorem C9_debug_names_witness :
    TypeSet.debugNames
        [(0, Value.new ⟨0, "A"⟩ 5), (1, Value.new ⟨1, "B"⟩ 6)]
      = TypeSet.debugNames
        [(0, Value.new ⟨1, "B"⟩ 7), (1, Value.new ⟨0, "A"⟩ 8)] :=
  (C9_debug_names
    [(0, Value.new ⟨0, "A"⟩ 5), (1, Value.new ⟨1, "B"⟩ 6)]
    [(0, Value.new ⟨1, "B"⟩ 7), (1, Value.new ⟨0, "A"⟩ 8)]).2.2
    (List.Perm.swap "B" "A" [])

theorem slotUnchanged_insertPair {U T : RustType} (hne : U.id ≠ T.id)
    (cell : Value) (s : TypeSet) :
    slotUnchanged U s (insertPair (key T) cell s) := by
  have hfk : findKey (key U) (insertPair (key T) cell s) = findKey (key U) s := by
    rw [findKey_insertPair, if_neg (show ¬key U = key T from hne)]
  exact ⟨by rw [TypeSet.contains, TypeSet.contains, hfk],
    by rw [TypeSet.get, TypeSet.get, hfk]⟩

theorem slotUnchanged_removeKey {U T : RustType} (hne : U.id ≠ T.id)
    (s : TypeSet) :
    slotUnchanged U s (removeKey (key T) s) := by
  have hfk : findKey (key U) (removeKey (key T) s) = findKey (key U) s :=
    findKey_removeKey_ne hne s
  exact ⟨by rw [TypeSet.contains, TypeSet.contains, hfk],
    by rw [TypeSet.get, TypeSet.get, hfk]⟩

theorem slotUnchanged_refl (U : RustType) (s : TypeSet) :
    slotUnchanged U s s :=
  ⟨rfl, rfl⟩

/-- C10: for distinct types `T` and `U`, the operations `insert::<T>`,
`take::<T>`, writes through `get_mut::<T>`, and every operation performed
through `entry::<T>()` leave `U`'s slot unchanged: `contains::<U>()` and
`get::<U>()` observe the same slot before and after. -/
theorem C10_frame (T U : RustType) (hne : U.id ≠ T.id) (v d p : Nat)
    (s : TypeSet) :
    slotUnchanged U s (TypeSet.insert T v s).2 ∧
    slotUnchanged U s (TypeSet.take T s).2 ∧
    slotUnchanged U s (TypeSet.with T v s) ∧
    slotUnchanged U s (writeThroughGetMut T p s) ∧
    slotUnchanged U s (TypeSet.get_or_insert T d s).2 ∧
    (∀ {σ : Type} (f : σ → σ × Nat) (c : σ),
      slotUnchanged U s (TypeSet.get_or_insert_with T f s c).1.2) ∧
    (∀ {σ : Type} (g : σ → Nat → σ × Nat) (c c' : σ) (e : Entry),
      Entry.and_modify T g (TypeSet.entry T s) c = some (e, c') →
      slotUnchanged U s (entrySet e)) ∧
    (∀ (cell : Value) (s₂ : TypeSet), TypeSet.entry T s = .occupied cell s₂ →
      slotUnchanged U s (OccupiedEntry.insert T v cell s₂).2 ∧
        slotUnchanged U s (OccupiedEntry.remove T cell s₂).2) ∧
    (∀ s₂ : TypeSet, TypeSet.entry T s = .vacant s₂ →
      slotUnchanged U s (VacantEntry.insert T v s₂).2) := by
  refine ⟨?_, ?_, ?_, ?_, ?_, ?_, ?_, ?_, ?_⟩
  · rw [insert_snd]
    exact slotUnchanged_insertPair hne _ s
  · cases hfk : findKey (key T) s
    · rw [take_snd_of_none hfk]
      exact slotUnchanged_refl U s
    · rw [take_snd_of_some hfk]
      exact slotUnchanged_removeKey hne s
  · rw [TypeSet.with, insert_snd]
    exact slotUnchanged_insertPair hne _ s
  · rw [writeThroughGetMut]
    cases hfk : findKey (key T) s
    · exact slotUnchanged_refl U s
    · exact slotUnchanged_insertPair hne _ s
  · cases hfk : findKey (key T) s
    · rw [or_insert_of_none d hfk]
      exact slotUnchanged_insertPair hne _ s
    · rw [or_insert_of_some d hfk]
      exact slotUnchanged_refl U s
  · intro σ f c
    cases hfk : findKey (key T) s
    · rw [or_insert_with_of_none f c hfk]
      exact slotUnchanged_insertPair hne _ s
    · rw [or_insert_with_of_some f c hfk]
      exact slotUnchanged_refl U s
  · intro σ g c c' e hmod
    rcases and_modify_inversion hmod with ⟨rfl, -⟩ | ⟨cell, q, hfind, -, rfl, -⟩
    · exact slotUnchanged_refl U s
    · exact slotUnchanged_insertPair hne _ s
  · intro cell s₂ hocc
    obtain ⟨-, heq⟩ := entry_occupied_inv hocc
    subst heq
    exact ⟨slotUnchanged_insertPair hne _ s₂, slotUnchanged_removeKey hne s₂⟩
  · intro s₂ hvac
    obtain ⟨-, heq⟩ := entry_vacant_inv hvac
    subst heq
    exact slotUnchanged_insertPair hne _ s₂

/-- Witness for C10 with the distinct types `A` and `B` on a one-element
set. -/
theorem C10_frame_witness :
    slotUnchanged ⟨1, "B"⟩ (TypeSet.with ⟨1, "B"⟩ 3 TypeSet.new)
      (TypeSet.insert ⟨0, "A"⟩ 7 (TypeSet.with ⟨1, "B"⟩ 3 TypeSet.new)).2 :=
  (C10_frame ⟨0, "A"⟩ ⟨1, "B"⟩ (by decide) 7 0 0
    (TypeSet.with ⟨1, "B"⟩ 3 TypeSet.new)).1

end TypeSetModel
